import Mathlib

/-
Verification of the dynamic-array container in `src/vector.h` (`Vector<T>`).

The container is embedded shallowly: the C++ object state
`{ size_type sz; size_type max_sz; unique_ptr<value_type[]> values; }`
becomes a Lean structure holding two naturals and a list of length
`max_sz` for the owned buffer.  `std::make_unique<T[]>(n)` value-initializes
its elements, which for an element type like `int` yields the default
value, modelled by `List.replicate n default`.  Cursors (iterators) are
pointers into the buffer; a cursor is modelled by its offset from
`begin()`, which is exactly what the code itself computes via
`ConstIterator` subtraction (`pos - begin()`), as a signed integer.
Operations that `throw std::runtime_error` return `Except String` carrying
the exact message string the source throws.
-/

set_option autoImplicit false

namespace Impl

/-- State of `Vector<T>` from src/vector.h: logical size `sz`, allocated
capacity `max_sz`, and the owned buffer `values` (length `max_sz`). -/
structure Vector (T : Type) where
  sz : Nat
  max_sz : Nat
  values : List T
deriving Repr, DecidableEq

namespace Vector

variable {T : Type}

/-- `static constexpr size_type min_capacity = 5;` -/
def min_capacity : Nat := 5

/-- Default constructor `Vector()`: the member initializers give
`sz = 0`, `max_sz = min_capacity`, and a fresh value-initialized buffer
of `min_capacity` slots. -/
def mkDefault (T : Type) [Inhabited T] : Vector T :=
  { sz := 0, max_sz := min_capacity,
    values := List.replicate min_capacity default }

/-- `Vector(size_type n)`: `sz = 0`, `max_sz = max(n, min_capacity)`,
fresh buffer of `max_sz` slots. -/
def mkSized (T : Type) [Inhabited T] (n : Nat) : Vector T :=
  { sz := 0, max_sz := max n min_capacity,
    values := List.replicate (max n min_capacity) default }

/-- `Vector(std::initializer_list)`: `sz = init.size()`,
`max_sz = max(init.size(), min_capacity)`; `std::copy` writes the list's
elements at the front of the fresh value-initialized buffer. -/
def fromList [Inhabited T] (init : List T) : Vector T :=
  { sz := init.length, max_sz := max init.length min_capacity,
    values := init ++ List.replicate (max init.length min_capacity - init.length) default }

/-- Copy constructor `Vector(const Vector&)`: mirrors `sz` and `max_sz`,
allocates a fresh buffer of `other.max_sz` slots and `std::copy`s the
first `other.sz` elements of `other`'s buffer into it. -/
def copy [Inhabited T] (other : Vector T) : Vector T :=
  { sz := other.sz, max_sz := other.max_sz,
    values := other.values.take other.sz
      ++ List.replicate (other.max_sz - other.sz) default }

/-- Copy assignment `operator=`: the flag `same` models the pointer
identity test `this == &other`; when the operands are the same object the
body is skipped and `*this` is returned unchanged, otherwise the fields
are overwritten exactly as in the copy constructor. -/
def assign [Inhabited T] (this other : Vector T) (same : Bool) : Vector T :=
  if same then this else copy other

/-- `size()` -/
def size (v : Vector T) : Nat := v.sz

/-- `capacity()` -/
def capacity (v : Vector T) : Nat := v.max_sz

/-- `empty()` -/
def isEmpty (v : Vector T) : Bool := v.sz == 0

/-- `clear()`: sets `sz` to 0, buffer and capacity untouched. -/
def clear (v : Vector T) : Vector T := { v with sz := 0 }

/-- The loop `for (size_type i = 0; i < count; ++i) dst[i] = src[i];`
used by `reserve` and `shrink_to_fit` to copy the live elements into a
fresh buffer `dst`. -/
def copyLoop [Inhabited T] (src : List T) (dst : List T) (i count : Nat) : List T :=
  if h : i < count then
    copyLoop src (dst.set i (src.getD i default)) (i + 1) count
  else dst
termination_by count - i

/-- `reserve(n)`: returns immediately when `n <= max_sz`; otherwise
allocates a fresh value-initialized buffer of `n` slots, copies the first
`sz` elements, and sets `max_sz = n`. -/
def reserve [Inhabited T] (v : Vector T) (n : Nat) : Vector T :=
  if n ≤ v.max_sz then v
  else
    { sz := v.sz, max_sz := n,
      values := copyLoop v.values (List.replicate n default) 0 v.sz }

/-- `shrink_to_fit()`: returns immediately when `sz == max_sz`; otherwise
reallocates to `max(sz, min_capacity)` slots, copying the first `sz`
elements. -/
def shrink_to_fit [Inhabited T] (v : Vector T) : Vector T :=
  if v.sz = v.max_sz then v
  else
    { sz := v.sz, max_sz := max v.sz min_capacity,
      values := copyLoop v.values (List.replicate (max v.sz min_capacity) default) 0 v.sz }

/-- `push_back(x)`: grows via `reserve(max_sz * 2)` when `sz == max_sz`,
then `values[sz++] = x`. -/
def push_back [Inhabited T] (v : Vector T) (x : T) : Vector T :=
  let v1 := if v.sz = v.max_sz then v.reserve (v.max_sz * 2) else v
  { v1 with values := v1.values.set v1.sz x, sz := v1.sz + 1 }

/-- `pop_back()`: throws "Cannot pop from empty vector" when `sz == 0`,
otherwise decrements `sz` (buffer untouched). -/
def pop_back (v : Vector T) : Except String (Vector T) :=
  if v.sz = 0 then Except.error "Cannot pop from empty vector"
  else Except.ok { v with sz := v.sz - 1 }

/-- `operator[](i)` (both overloads): throws "Index out of bounds" when
`i >= sz`, otherwise reads `values[i]`. -/
def get [Inhabited T] (v : Vector T) (i : Nat) : Except String T :=
  if i ≥ v.sz then Except.error "Index out of bounds"
  else Except.ok (v.values.getD i default)

/-- The shifting loop of `insert`:
`for (auto i{sz}; i-- > current;) values[i + 1] = values[i];`
i.e. starting from `i = sz`, while `i > current`, decrement `i` and copy
slot `i - 1` into slot `i` (writing from the top down). -/
def shiftLoop [Inhabited T] (vals : List T) (current i : Nat) : List T :=
  if h : current < i then
    shiftLoop (vals.set i (vals.getD (i - 1) default)) current (i - 1)
  else vals
termination_by i

/-- `insert(pos, val)`: the cursor argument is its signed offset from
`begin()` (the code computes `auto diff = pos - begin();`).  Throws
"Iterator out of bounds" when `diff < 0` or `diff > sz`; otherwise grows
when `sz >= max_sz`, shifts slots `[current, sz)` one to the right, writes
`val` at `current`, increments `sz`, and returns a cursor at offset
`current` into the (possibly new) buffer. -/
def insert [Inhabited T] (v : Vector T) (pos : Int) (val : T) :
    Except String (Vector T × Nat) :=
  if pos < 0 ∨ pos.toNat > v.sz then Except.error "Iterator out of bounds"
  else
    let current := pos.toNat
    let v1 := if v.sz ≥ v.max_sz then v.reserve (v.max_sz * 2) else v
    let shifted := shiftLoop v1.values current v1.sz
    Except.ok ({ v1 with values := shifted.set current val, sz := v1.sz + 1 }, current)

/-- The shifting loop of `erase`:
`for (auto i{current}; i < sz - 1; ++i) values[i] = values[i + 1];` -/
def eraseLoop [Inhabited T] (vals : List T) (i stop : Nat) : List T :=
  if h : i < stop then
    eraseLoop (vals.set i (vals.getD (i + 1) default)) (i + 1) stop
  else vals
termination_by stop - i

/-- `erase(pos)`: the cursor argument is its signed offset from
`begin()`.  Throws "Iterator out of bounds" when `diff < 0` or
`diff >= sz`; otherwise shifts slots `(current, sz)` one to the left,
decrements `sz`, and returns a cursor at offset `current`. -/
def erase [Inhabited T] (v : Vector T) (pos : Int) :
    Except String (Vector T × Nat) :=
  if pos < 0 ∨ pos.toNat ≥ v.sz then Except.error "Iterator out of bounds"
  else
    let current := pos.toNat
    let shifted := eraseLoop v.values current (v.sz - 1)
    Except.ok ({ v with values := shifted, sz := v.sz - 1 }, current)

/-- The logically present elements, in index order: the first `sz` slots
of the buffer.  This is the sequence observable through `operator[]` and
iteration. -/
def toList (v : Vector T) : List T := v.values.take v.sz

/-- Well-formedness maintained by the C++ class: the buffer really has
`max_sz` slots, the live prefix fits, and the capacity floor holds. -/
abbrev WF (v : Vector T) : Prop :=
  v.sz ≤ v.max_sz ∧ min_capacity ≤ v.max_sz ∧ v.values.length = v.max_sz

/-- The body of `operator<<` from index `i` on: each iteration prints
element `i` followed by ", " unless it is the last live element. -/
def renderFrom [Inhabited T] [ToString T] (v : Vector T) (i : Nat) : String :=
  if _h : i < v.sz then
    toString (v.values.getD i default)
      ++ (if i + 1 < v.sz then ", " else "")
      ++ renderFrom v (i + 1)
  else ""
termination_by v.sz - i

/-- `operator<<`: prints "[", then the live elements separated by ", ",
then "]". -/
def render [Inhabited T] [ToString T] (v : Vector T) : String :=
  "[" ++ renderFrom v 0 ++ "]"

/-- Helper used only to state the formatting claim: joins strings with a
separator, the shape the spec describes ("a bracketed, comma-separated
sequence"). -/
def joinSep (sep : String) : List String → String
  | [] => ""
  | [a] => a
  | a :: b :: rest => a ++ sep ++ joinSep sep (b :: rest)

/-- Spec-side rendering: bracketed, comma-separated sequence of the
container's `size()` elements in index order. -/
def renderSpec [Inhabited T] [ToString T] (v : Vector T) : String :=
  "[" ++ joinSep ", " (v.toList.map toString) ++ "]"

/-- Appending a whole list by repeated `push_back`, used to state the
append-correctness claim. -/
def pushAll [Inhabited T] (v : Vector T) (l : List T) : Vector T :=
  l.foldl push_back v

end Vector

/-! ## List helper lemmas -/

theorem take_set_le {T : Type} (l : List T) (m n : Nat) (x : T) (h : m ≤ n) :
    (l.set n x).take m = l.take m := by
  rw [List.set_take, List.set_eq_of_length_le]
  simp only [List.length_take]
  exact Nat.le_trans (Nat.min_le_left _ _) h

theorem take_succ_getD {T : Type} [Inhabited T] (l : List T) (k : Nat) (h : k < l.length) :
    l.take (k + 1) = l.take k ++ [l.getD k default] := by
  rw [List.take_succ]
  congr 1
  simp [List.getElem?_eq_getElem h]

theorem getD_drop' {T : Type} [Inhabited T] (l : List T) (n k : Nat) :
    (l.drop n).getD k default = l.getD (n + k) default := by
  simp [List.getD_eq_getElem?_getD, List.getElem?_drop]

theorem drop_cons_getD {T : Type} [Inhabited T] (l : List T) (n : Nat) (h : n < l.length) :
    l.drop n = l.getD n default :: l.drop (n + 1) := by
  rw [List.drop_eq_getElem_cons h]
  simp [List.getD_eq_getElem?_getD, List.getElem?_eq_getElem h]

theorem set_take_succ_self {T : Type} (l : List T) (i : Nat) (x : T) (h : i < l.length) :
    (l.set i x).take (i + 1) = l.take i ++ [x] := by
  rw [List.set_eq_take_cons_drop x h, List.take_append_eq_append_take]
  simp [List.take_take, Nat.min_def, Nat.le_of_lt h]

namespace Vector

variable {T : Type}

/-! ## Loop characterizations -/

/-- The copy loop fills `dst[i..count)` with `src[i..count)`. -/
theorem copyLoop_eq [Inhabited T] (src dst : List T) (i count : Nat)
    (hi : i ≤ count) (hs : count ≤ src.length) (hd : count ≤ dst.length) :
    copyLoop src dst i count
      = dst.take i ++ (src.drop i).take (count - i) ++ dst.drop count := by
  rw [copyLoop]
  by_cases h : i < count
  · simp only [dif_pos h]
    rw [copyLoop_eq src (dst.set i (src.getD i default)) (i + 1) count
        (by omega) hs (by simpa using hd)]
    have hil : i < dst.length := Nat.lt_of_lt_of_le h hd
    rw [set_take_succ_self dst i _ hil,
        List.drop_set_of_lt _ _ h]
    have hmid : (src.drop i).take (count - i)
        = src.getD i default :: (src.drop (i + 1)).take (count - (i + 1)) := by
      rw [drop_cons_getD src i (Nat.lt_of_lt_of_le h hs)]
      have : count - i = (count - (i + 1)) + 1 := by omega
      rw [this, List.take_succ_cons]
    rw [hmid]
    simp [List.append_assoc]
  · simp only [dif_neg h]
    have : i = count := by omega
    subst this
    simp [List.take_append_drop]
termination_by count - i

/-- The insert shifting loop moves `vals[current..i)` one slot to the
right (slot `current` keeps its old value, slot `i` is overwritten). -/
theorem shiftLoop_eq [Inhabited T] (vals : List T) (current i : Nat) :
    current ≤ i → i < vals.length →
    shiftLoop vals current i
      = vals.take (current + 1) ++ (vals.drop current).take (i - current)
          ++ vals.drop (i + 1) := by
  induction vals, current, i using shiftLoop.induct with
  | case1 vals current i h ih =>
    intro hc hl
    rw [shiftLoop]
    simp only [dif_pos h]
    rw [ih (by omega) (by simpa using Nat.lt_of_le_of_lt (Nat.sub_le i 1) hl)]
    rw [take_set_le _ _ _ _ (by omega)]
    have hdrop : ((vals.set i (vals.getD (i - 1) default)).drop current).take (i - 1 - current)
        = (vals.drop current).take (i - 1 - current) := by
      rw [List.drop_set]
      rw [if_neg (by omega)]
      rw [take_set_le _ _ _ _ (by omega)]
    rw [hdrop]
    have htail : (vals.set i (vals.getD (i - 1) default)).drop (i - 1 + 1)
        = vals.getD (i - 1) default :: vals.drop (i + 1) := by
      have hi1 : i - 1 + 1 = i := by omega
      rw [hi1, drop_cons_getD _ i (by simpa using hl)]
      congr 1
      · simp [List.getD_eq_getElem?_getD, List.getElem?_set_self hl]
      · exact List.drop_set_of_lt _ _ (by omega)
    rw [htail]
    have hmid : (vals.drop current).take (i - current)
        = (vals.drop current).take (i - 1 - current) ++ [vals.getD (i - 1) default] := by
      have hlen : i - 1 - current < (vals.drop current).length := by
        simp only [List.length_drop]; omega
      rw [show i - current = (i - 1 - current) + 1 by omega,
          take_succ_getD _ _ hlen, getD_drop']
      congr 3
      omega
    rw [hmid]
    simp [List.append_assoc]
  | case2 vals current i h =>
    intro hc hl
    have : current = i := by omega
    subst this
    rw [shiftLoop]
    simp only [dif_neg h]
    simp [List.take_append_drop]

/-- The erase shifting loop moves `vals(i..stop]` one slot to the left
(slot `stop` keeps its old value). -/
theorem eraseLoop_eq [Inhabited T] (vals : List T) (i stop : Nat) :
    i ≤ stop → stop < vals.length →
    eraseLoop vals i stop
      = vals.take i ++ (vals.drop (i + 1)).take (stop - i) ++ vals.drop stop := by
  induction vals, i, stop using eraseLoop.induct with
  | case1 vals i stop h ih =>
    intro hi hl
    rw [eraseLoop]
    simp only [dif_pos h]
    rw [ih (by omega) (by simpa using hl)]
    have hil : i < vals.length := by omega
    rw [set_take_succ_self vals i _ hil]
    have hdrop2 : (vals.set i (vals.getD (i + 1) default)).drop (i + 1 + 1)
        = vals.drop (i + 1 + 1) := List.drop_set_of_lt _ _ (by omega)
    have hdrops : (vals.set i (vals.getD (i + 1) default)).drop stop
        = vals.drop stop := List.drop_set_of_lt _ _ (by omega)
    rw [hdrop2, hdrops]
    have hmid : (vals.drop (i + 1)).take (stop - i)
        = vals.getD (i + 1) default :: (vals.drop (i + 1 + 1)).take (stop - (i + 1)) := by
      rw [drop_cons_getD _ (i + 1) (by omega)]
      rw [show stop - i = (stop - (i + 1)) + 1 by omega, List.take_succ_cons]
    rw [hmid]
    simp [List.append_assoc]
  | case2 vals i stop h =>
    intro hi hl
    have : i = stop := by omega
    subst this
    rw [eraseLoop]
    simp [dif_neg h, List.take_append_drop]

/-! ## Operation-level facts -/

theorem toList_length (v : Vector T) (hwf : WF v) : v.toList.length = v.sz := by
  obtain ⟨h1, _, h3⟩ := hwf
  simp [toList, h3]
  omega

theorem wf_mkDefault (T : Type) [Inhabited T] : WF (mkDefault T) := by
  refine ⟨Nat.zero_le _, Nat.le_refl _, ?_⟩
  simp [mkDefault]

theorem wf_mkSized (T : Type) [Inhabited T] (n : Nat) : WF (mkSized T n) := by
  refine ⟨Nat.zero_le _, Nat.le_max_right _ _, ?_⟩
  simp [mkSized]

theorem wf_fromList [Inhabited T] (l : List T) : WF (fromList l) := by
  refine ⟨Nat.le_max_left _ _, Nat.le_max_right _ _, ?_⟩
  simp [fromList]

theorem fromList_toList [Inhabited T] (l : List T) : (fromList l).toList = l := by
  simp [fromList, toList, List.take_append_of_le_length (Nat.le_refl l.length)]

theorem wf_copy [Inhabited T] (v : Vector T) (hwf : WF v) : WF (copy v) := by
  obtain ⟨h1, h2, h3⟩ := hwf
  refine ⟨h1, h2, ?_⟩
  simp [copy]
  omega

theorem copy_toList [Inhabited T] (v : Vector T) (hwf : WF v) :
    (copy v).toList = v.toList := by
  obtain ⟨h1, _, h3⟩ := hwf
  simp only [copy, toList]
  rw [List.take_append_of_le_length (by simp [h3]; omega)]
  rw [List.take_take]
  simp

theorem wf_clear (v : Vector T) (hwf : WF v) : WF (clear v) :=
  ⟨Nat.zero_le _, hwf.2.1, hwf.2.2⟩

theorem reserve_of_le [Inhabited T] (v : Vector T) (n : Nat) (h : n ≤ v.max_sz) :
    v.reserve n = v := by
  simp [reserve, h]

theorem reserve_values [Inhabited T] (v : Vector T) (n : Nat) (hwf : WF v)
    (h : v.max_sz < n) :
    (v.reserve n).values
      = v.values.take v.sz ++ List.replicate (n - v.sz) default := by
  obtain ⟨h1, _, h3⟩ := hwf
  simp only [reserve, if_neg (by omega : ¬ n ≤ v.max_sz)]
  rw [copyLoop_eq _ _ _ _ (Nat.zero_le _) (by omega) (by simp; omega)]
  simp

theorem reserve_sz [Inhabited T] (v : Vector T) (n : Nat) : (v.reserve n).sz = v.sz := by
  simp only [reserve]
  split <;> rfl

theorem reserve_max_sz [Inhabited T] (v : Vector T) (n : Nat) (h : v.max_sz < n) :
    (v.reserve n).max_sz = n := by
  simp only [reserve, if_neg (by omega : ¬ n ≤ v.max_sz)]

theorem reserve_toList [Inhabited T] (v : Vector T) (n : Nat) (hwf : WF v) :
    (v.reserve n).toList = v.toList := by
  by_cases h : n ≤ v.max_sz
  · rw [reserve_of_le v n h]
  · have h1 := hwf.1
    have h3 := hwf.2.2
    simp only [toList, reserve_sz]
    rw [reserve_values v n hwf (by omega)]
    rw [List.take_append_of_le_length (by simp [h3]; omega)]
    rw [List.take_take]
    simp

theorem wf_reserve [Inhabited T] (v : Vector T) (n : Nat) (hwf : WF v) :
    WF (v.reserve n) := by
  by_cases h : n ≤ v.max_sz
  · rw [reserve_of_le v n h]; exact hwf
  · obtain ⟨h1, h2, h3⟩ := hwf
    refine ⟨?_, ?_, ?_⟩
    · rw [reserve_sz, reserve_max_sz v n (by omega)]; omega
    · rw [reserve_max_sz v n (by omega)]; omega
    · rw [reserve_values v n ⟨h1, h2, h3⟩ (by omega), reserve_max_sz v n (by omega)]
      simp [h3]
      omega

theorem min_capacity_eq : min_capacity = 5 := rfl

theorem push_back_eq [Inhabited T] (v : Vector T) (x : T) (hwf : WF v) :
    (v.push_back x).sz = v.sz + 1 ∧
    (v.push_back x).max_sz = (if v.sz = v.max_sz then v.max_sz * 2 else v.max_sz) ∧
    (v.push_back x).toList = v.toList ++ [x] ∧
    WF (v.push_back x) := by
  have h5 : 5 ≤ v.max_sz := by rw [← min_capacity_eq]; exact hwf.2.1
  by_cases h : v.sz = v.max_sz
  · have hmax : (v.reserve (v.max_sz * 2)).max_sz = v.max_sz * 2 :=
      reserve_max_sz v _ (by omega)
    have hwf1 : WF (v.reserve (v.max_sz * 2)) := wf_reserve v _ hwf
    have hsz1 : (v.reserve (v.max_sz * 2)).sz = v.sz := reserve_sz v _
    have hlt : (v.reserve (v.max_sz * 2)).sz < (v.reserve (v.max_sz * 2)).values.length := by
      rw [hsz1, hwf1.2.2, hmax]; omega
    refine ⟨?_, ?_, ?_, ?_, ?_, ?_⟩
    · simp only [push_back, if_pos h, hsz1]
    · simp only [push_back, if_pos h, hmax, if_pos h]
    · have hlt' : v.sz < (v.reserve (v.max_sz * 2)).values.length := by
        rw [hwf1.2.2, hmax]; omega
      simp only [push_back, if_pos h, toList, hsz1]
      rw [set_take_succ_self _ _ _ hlt']
      have htl := reserve_toList v (v.max_sz * 2) hwf
      simp only [toList, hsz1] at htl
      rw [htl]
    · simp only [push_back, if_pos h, hsz1, hmax]; omega
    · simp only [push_back, if_pos h, hmax]
      rw [min_capacity_eq]; omega
    · simp only [push_back, if_pos h, List.length_set, hwf1.2.2, hmax]
  · have hlt : v.sz < v.max_sz := Nat.lt_of_le_of_ne hwf.1 h
    have hltl : v.sz < v.values.length := by rw [hwf.2.2]; exact hlt
    refine ⟨?_, ?_, ?_, ?_, ?_, ?_⟩
    · simp only [push_back, if_neg h]
    · simp only [push_back, if_neg h, if_neg h]
    · simp only [push_back, if_neg h, toList]
      exact set_take_succ_self _ _ _ hltl
    · simp only [push_back, if_neg h]; omega
    · simp only [push_back, if_neg h]; exact hwf.2.1
    · simp only [push_back, if_neg h, List.length_set]; exact hwf.2.2

theorem get_ok [Inhabited T] (v : Vector T) (i : Nat) (h : i < v.sz) :
    v.get i = Except.ok (v.values.getD i default) := by
  simp [get, Nat.not_le.2 h]

theorem get_toList [Inhabited T] (v : Vector T) (i : Nat) (h : i < v.sz) :
    v.get i = Except.ok (v.toList.getD i default) := by
  rw [get_ok v i h]
  congr 1
  simp [toList, List.getD_eq_getElem?_getD, List.getElem?_take_of_lt h]

theorem pop_back_ok (v : Vector T) (h : v.sz ≠ 0) :
    v.pop_back = Except.ok { v with sz := v.sz - 1 } := by
  simp [pop_back, h]

theorem push_pop [Inhabited T] (v : Vector T) (x : T) (hwf : WF v) :
    ∃ w, (v.push_back x).pop_back = Except.ok w ∧
      w.sz = v.sz ∧ w.toList = v.toList ∧ w.max_sz = (v.push_back x).max_sz ∧ WF w := by
  obtain ⟨hsz, hmax, htl, hwf'⟩ := push_back_eq v x hwf
  refine ⟨{ v.push_back x with sz := (v.push_back x).sz - 1 },
    pop_back_ok _ (by omega), by simp [hsz], ?_, rfl, ?_⟩
  · have hsz' : (v.push_back x).sz - 1 = v.sz := by omega
    have key : ((v.push_back x).toList).take v.sz = v.toList := by
      rw [htl, List.take_append_of_le_length (by rw [toList_length v hwf]),
          List.take_of_length_le (by rw [toList_length v hwf])]
    simp only [toList] at key ⊢
    simp only [hsz']
    rw [List.take_take] at key
    rw [show min v.sz (v.push_back x).sz = v.sz by omega] at key
    exact key
  · exact ⟨Nat.le_trans (Nat.sub_le _ _) hwf'.1, hwf'.2.1, hwf'.2.2⟩

/-- Core of `insert` after the growth step: the effect of the shift loop
followed by the write at `current` on the live prefix. -/
theorem insert_core [Inhabited T] (v1 : Vector T) (p : Nat) (x : T)
    (hwf1 : WF v1) (hp : p ≤ v1.sz) (hlt : v1.sz < v1.max_sz) :
    ((shiftLoop v1.values p v1.sz).set p x).take (v1.sz + 1)
      = v1.toList.take p ++ x :: v1.toList.drop p ∧
    ((shiftLoop v1.values p v1.sz).set p x).length = v1.values.length := by
  have hlen : v1.values.length = v1.max_sz := hwf1.2.2
  have hszlen : v1.sz < v1.values.length := by omega
  have hplen : p < v1.values.length := by omega
  have hA : (v1.values.take (p + 1)).length = p + 1 := by simp; omega
  have hbuf : (shiftLoop v1.values p v1.sz).set p x
      = (v1.values.take p ++ [x])
        ++ ((v1.values.drop p).take (v1.sz - p) ++ v1.values.drop (v1.sz + 1)) := by
    rw [shiftLoop_eq v1.values p v1.sz hp hszlen]
    rw [List.append_assoc]
    rw [List.set_append_left _ _ (by rw [hA]; omega)]
    rw [← List.set_take, set_take_succ_self _ _ _ hplen]
  constructor
  · rw [hbuf]
    have e0 : ((v1.values.take p ++ [x])
        ++ ((v1.values.drop p).take (v1.sz - p) ++ v1.values.drop (v1.sz + 1))).take (v1.sz + 1)
        = (v1.values.take p ++ [x]).take (v1.sz + 1)
          ++ ((v1.values.drop p).take (v1.sz - p) ++ v1.values.drop (v1.sz + 1)).take
              (v1.sz + 1 - (v1.values.take p ++ [x]).length) :=
      List.take_append_eq_append_take
    rw [e0]
    have e1 : (v1.values.take p ++ [x]).take (v1.sz + 1) = v1.values.take p ++ [x] :=
      List.take_of_length_le (by simp; omega)
    have e2 : v1.sz + 1 - (v1.values.take p ++ [x]).length = v1.sz - p := by
      simp
      omega
    rw [e1, e2]
    have e3 : ((v1.values.drop p).take (v1.sz - p) ++ v1.values.drop (v1.sz + 1)).take (v1.sz - p)
        = (v1.values.drop p).take (v1.sz - p) := by
      rw [List.take_append_of_le_length (by simp; omega)]
      rw [List.take_take]
      simp
    rw [e3]
    have h1 : v1.toList.take p = v1.values.take p := by
      simp only [toList]
      rw [List.take_take]
      congr 1
      omega
    have h2 : v1.toList.drop p = (v1.values.drop p).take (v1.sz - p) := by
      simp only [toList]
      rw [List.drop_take]
    rw [h1, h2]
    simp
  · rw [hbuf]
    simp
    omega

theorem insert_ok [Inhabited T] (v : Vector T) (p : Nat) (x : T)
    (hwf : WF v) (hp : p ≤ v.sz) :
    ∃ v1, v.insert (p : Int) x = Except.ok (v1, p) ∧
      v1.sz = v.sz + 1 ∧
      v1.max_sz = (if v.sz = v.max_sz then v.max_sz * 2 else v.max_sz) ∧
      v1.toList = v.toList.take p ++ x :: v.toList.drop p ∧
      WF v1 := by
  have h5 : 5 ≤ v.max_sz := by rw [← min_capacity_eq]; exact hwf.2.1
  simp only [insert, Int.toNat_ofNat]
  rw [if_neg (by omega : ¬ ((p : Int) < 0 ∨ p > v.sz))]
  by_cases h : v.sz ≥ v.max_sz
  · simp only [if_pos h]
    have heq : v.sz = v.max_sz := Nat.le_antisymm hwf.1 h
    have hmax : (v.reserve (v.max_sz * 2)).max_sz = v.max_sz * 2 :=
      reserve_max_sz v _ (by omega)
    have hwf1 : WF (v.reserve (v.max_sz * 2)) := wf_reserve v _ hwf
    have hsz1 : (v.reserve (v.max_sz * 2)).sz = v.sz := reserve_sz v _
    have htl1 : (v.reserve (v.max_sz * 2)).toList = v.toList := reserve_toList v _ hwf
    obtain ⟨hcore, hclen⟩ := insert_core (v.reserve (v.max_sz * 2)) p x hwf1
      (by omega) (by omega)
    rw [htl1] at hcore
    refine ⟨_, rfl, ?_, ?_, ?_, ?_, ?_, ?_⟩
    · show (v.reserve (v.max_sz * 2)).sz + 1 = v.sz + 1
      rw [hsz1]
    · show (v.reserve (v.max_sz * 2)).max_sz = _
      rw [hmax, if_pos heq]
    · show ((shiftLoop (v.reserve (v.max_sz * 2)).values p (v.reserve (v.max_sz * 2)).sz).set p x).take
        ((v.reserve (v.max_sz * 2)).sz + 1) = _
      exact hcore
    · show (v.reserve (v.max_sz * 2)).sz + 1 ≤ (v.reserve (v.max_sz * 2)).max_sz
      rw [hsz1, hmax]
      omega
    · show min_capacity ≤ (v.reserve (v.max_sz * 2)).max_sz
      rw [hmax, min_capacity_eq]
      omega
    · show ((shiftLoop (v.reserve (v.max_sz * 2)).values p (v.reserve (v.max_sz * 2)).sz).set p x).length
        = (v.reserve (v.max_sz * 2)).max_sz
      rw [hclen, hwf1.2.2]
  · simp only [if_neg h]
    have hlt : v.sz < v.max_sz := Nat.lt_of_not_le h
    obtain ⟨hcore, hclen⟩ := insert_core v p x hwf hp hlt
    refine ⟨_, rfl, ?_, ?_, ?_, ?_, ?_, ?_⟩
    · show v.sz + 1 = v.sz + 1
      rfl
    · show v.max_sz = _
      rw [if_neg (by omega : ¬ v.sz = v.max_sz)]
    · exact hcore
    · show v.sz + 1 ≤ v.max_sz
      omega
    · exact hwf.2.1
    · show ((shiftLoop v.values p v.sz).set p x).length = v.max_sz
      rw [hclen, hwf.2.2]

theorem erase_ok [Inhabited T] (v : Vector T) (p : Nat)
    (hwf : WF v) (hp : p < v.sz) :
    ∃ v2, v.erase (p : Int) = Except.ok (v2, p) ∧
      v2.sz = v.sz - 1 ∧
      v2.max_sz = v.max_sz ∧
      v2.toList = v.toList.take p ++ v.toList.drop (p + 1) ∧
      WF v2 := by
  have hlen : v.values.length = v.max_sz := hwf.2.2
  have hstop : v.sz - 1 < v.values.length := by omega
  have hshift := eraseLoop_eq v.values p (v.sz - 1) (by omega) hstop
  simp only [erase, Int.toNat_ofNat]
  rw [if_neg (by omega : ¬ ((p : Int) < 0 ∨ p ≥ v.sz))]
  refine ⟨_, rfl, rfl, rfl, ?_, ?_⟩
  · show (eraseLoop v.values p (v.sz - 1)).take (v.sz - 1) = _
    rw [hshift]
    have e0 : ((v.values.take p ++ (v.values.drop (p + 1)).take (v.sz - 1 - p))
          ++ v.values.drop (v.sz - 1)).take (v.sz - 1)
        = (v.values.take p ++ (v.values.drop (p + 1)).take (v.sz - 1 - p)).take (v.sz - 1)
          ++ (v.values.drop (v.sz - 1)).take
              (v.sz - 1 - (v.values.take p ++ (v.values.drop (p + 1)).take (v.sz - 1 - p)).length) :=
      List.take_append_eq_append_take
    rw [e0]
    have e1 : (v.values.take p ++ (v.values.drop (p + 1)).take (v.sz - 1 - p)).take (v.sz - 1)
        = v.values.take p ++ (v.values.drop (p + 1)).take (v.sz - 1 - p) :=
      List.take_of_length_le (by simp; omega)
    have e2 : v.sz - 1 - (v.values.take p ++ (v.values.drop (p + 1)).take (v.sz - 1 - p)).length
        = 0 := by
      simp
      omega
    rw [e1, e2, List.take_zero, List.append_nil]
    have h1 : v.toList.take p = v.values.take p := by
      simp only [toList]
      rw [List.take_take]
      congr 1
      omega
    have h2 : v.toList.drop (p + 1) = (v.values.drop (p + 1)).take (v.sz - 1 - p) := by
      simp only [toList]
      rw [List.drop_take]
      congr 1
      omega
    rw [h1, h2]
  · refine ⟨?_, hwf.2.1, ?_⟩
    · show v.sz - 1 ≤ v.max_sz
      omega
    · show (eraseLoop v.values p (v.sz - 1)).length = v.max_sz
      rw [hshift]
      simp
      omega

theorem shrink_to_fit_max_sz [Inhabited T] (v : Vector T) (hwf : WF v) :
    (v.shrink_to_fit).max_sz = max v.sz min_capacity := by
  by_cases h : v.sz = v.max_sz
  · simp only [shrink_to_fit, if_pos h]
    omega
  · simp only [shrink_to_fit, if_neg h]

theorem shrink_to_fit_sz [Inhabited T] (v : Vector T) : (v.shrink_to_fit).sz = v.sz := by
  simp only [shrink_to_fit]
  split <;> rfl

theorem wf_shrink_to_fit [Inhabited T] (v : Vector T) (hwf : WF v) :
    WF (v.shrink_to_fit) := by
  by_cases h : v.sz = v.max_sz
  · simp only [shrink_to_fit, if_pos h]; exact hwf
  · obtain ⟨h1, h2, h3⟩ := hwf
    simp only [shrink_to_fit, if_neg h]
    refine ⟨Nat.le_max_left _ _, Nat.le_max_right _ _, ?_⟩
    rw [copyLoop_eq _ _ _ _ (Nat.zero_le _) (by omega) (by simp)]
    simp [h3]
    omega

/-- The print loop from position `i` equals the comma-joined rendering of
the live elements from `i` on. -/
theorem renderFrom_eq [Inhabited T] [ToString T] (v : Vector T) (i : Nat) (hwf : WF v) :
    renderFrom v i = joinSep ", " ((v.toList.drop i).map toString) := by
  rw [renderFrom]
  by_cases h : i < v.sz
  · simp only [dif_pos h]
    have hlen : v.toList.length = v.sz := toList_length v hwf
    have hcons : v.toList.drop i = v.toList.getD i default :: v.toList.drop (i + 1) :=
      drop_cons_getD _ _ (by omega)
    have hg : v.toList.getD i default = v.values.getD i default := by
      simp [toList, List.getD_eq_getElem?_getD, List.getElem?_take_of_lt h]
    rw [hcons, hg, List.map_cons]
    rw [renderFrom_eq v (i + 1) hwf]
    by_cases h2 : i + 1 < v.sz
    · have hne : v.toList.drop (i + 1) ≠ [] := by
        intro hnil
        have := congrArg List.length hnil
        simp [hlen] at this
        omega
      obtain ⟨b, bs, hb⟩ := List.exists_cons_of_ne_nil hne
      rw [if_pos h2, hb, List.map_cons, joinSep]
    · have hnil : v.toList.drop (i + 1) = [] :=
        List.drop_of_length_le (by omega)
      rw [if_neg h2, hnil]
      simp only [List.map_nil, joinSep]
      rw [String.append_empty, String.append_empty]
  · simp only [dif_neg h]
    have hnil : v.toList.drop i = [] :=
      List.drop_of_length_le (by rw [toList_length v hwf]; omega)
    rw [hnil]
    rfl
termination_by v.sz - i

theorem render_eq_renderSpec [Inhabited T] [ToString T] (v : Vector T) (hwf : WF v) :
    render v = renderSpec v := by
  rw [render, renderSpec, renderFrom_eq v 0 hwf]
  rfl

/-- Folding `push_back` over a list appends the list to the live
sequence. -/
theorem pushAll_spec [Inhabited T] (l : List T) (v : Vector T) (hwf : WF v) :
    WF (pushAll v l) ∧ (pushAll v l).toList = v.toList ++ l := by
  induction l generalizing v with
  | nil => simpa [pushAll] using hwf
  | cons a as ih =>
    obtain ⟨hsz, hmax, htl, hwf'⟩ := push_back_eq v a hwf
    obtain ⟨ihwf, ihtl⟩ := ih (v.push_back a) hwf'
    refine ⟨?_, ?_⟩
    · simpa [pushAll] using ihwf
    · show (pushAll (v.push_back a) as).toList = _
      rw [ihtl, htl]
      simp

theorem pushAll_sz [Inhabited T] (l : List T) (v : Vector T) (hwf : WF v) :
    (pushAll v l).sz = v.toList.length + l.length := by
  obtain ⟨hwf', htl⟩ := pushAll_spec l v hwf
  have := toList_length _ hwf'
  rw [htl] at this
  simpa using this.symm

/-- Inversion: whenever `insert` succeeds, the position was valid and the
result is the one described by `insert_ok`. -/
theorem insert_inv [Inhabited T] (v : Vector T) (pos : Int) (x : T)
    (v1 : Vector T) (c : Nat) (hwf : WF v)
    (h : v.insert pos x = Except.ok (v1, c)) :
    ∃ p : Nat, pos = (p : Int) ∧ p ≤ v.sz ∧ c = p ∧
      v1.sz = v.sz + 1 ∧
      v1.max_sz = (if v.sz = v.max_sz then v.max_sz * 2 else v.max_sz) ∧
      v1.toList = v.toList.take p ++ x :: v.toList.drop p ∧
      WF v1 := by
  by_cases hc : pos < 0 ∨ pos.toNat > v.sz
  · rw [insert, if_pos hc] at h
    exact absurd h (by simp)
  · push_neg at hc
    have hpos : pos = ((pos.toNat : Nat) : Int) := (Int.toNat_of_nonneg (by omega)).symm
    rw [hpos] at h
    obtain ⟨v1', heq, hsz, hmax, htl, hwf1⟩ := insert_ok v pos.toNat x hwf hc.2
    rw [heq] at h
    have hpair : v1' = v1 ∧ pos.toNat = c := by
      have := Except.ok.inj h
      exact ⟨congrArg Prod.fst this, congrArg Prod.snd this⟩
    obtain ⟨rfl, rfl⟩ := hpair
    exact ⟨pos.toNat, hpos, hc.2, rfl, hsz, hmax, htl, hwf1⟩

/-- Inversion: whenever `erase` succeeds, the position was valid and the
result is the one described by `erase_ok`. -/
theorem erase_inv [Inhabited T] (v : Vector T) (pos : Int)
    (v2 : Vector T) (c : Nat) (hwf : WF v)
    (h : v.erase pos = Except.ok (v2, c)) :
    ∃ p : Nat, pos = (p : Int) ∧ p < v.sz ∧ c = p ∧
      v2.sz = v.sz - 1 ∧
      v2.max_sz = v.max_sz ∧
      v2.toList = v.toList.take p ++ v.toList.drop (p + 1) ∧
      WF v2 := by
  by_cases hc : pos < 0 ∨ pos.toNat ≥ v.sz
  · rw [erase, if_pos hc] at h
    exact absurd h (by simp)
  · push_neg at hc
    have hpos : pos = ((pos.toNat : Nat) : Int) := (Int.toNat_of_nonneg (by omega)).symm
    rw [hpos] at h
    obtain ⟨v2', heq, hsz, hmax, htl, hwf2⟩ := erase_ok v pos.toNat hwf hc.2
    rw [heq] at h
    have hpair : v2' = v2 ∧ pos.toNat = c := by
      have := Except.ok.inj h
      exact ⟨congrArg Prod.fst this, congrArg Prod.snd this⟩
    obtain ⟨rfl, rfl⟩ := hpair
    exact ⟨pos.toNat, hpos, hc.2, rfl, hsz, hmax, htl, hwf2⟩

/-- Inversion for `pop_back`. -/
theorem pop_back_inv (v : Vector T) (w : Vector T)
    (h : v.pop_back = Except.ok w) :
    v.sz ≠ 0 ∧ w = { v with sz := v.sz - 1 } := by
  by_cases h0 : v.sz = 0
  · rw [pop_back, if_pos h0] at h
    exact absurd h (by simp)
  · rw [pop_back_ok v h0] at h
    exact ⟨h0, (Except.ok.inj h).symm⟩

end Vector

/-! ## Claim theorems -/

/-- C1: starting from a default-constructed (empty) container, calling
push_back on v_0..v_{N-1} in order yields size() = N and indexed access
at every i < N returning v_i, for every list of values, including lists
crossing capacity-doubling boundaries. -/
theorem C1_append_correctness {T : Type} [Inhabited T] (l : List T) :
    (Vector.pushAll (Vector.mkDefault T) l).size = l.length ∧
    ∀ i, i < l.length →
      (Vector.pushAll (Vector.mkDefault T) l).get i = Except.ok (l.getD i default) := by
  have hwf0 : Vector.WF (Vector.mkDefault T) := Vector.wf_mkDefault T
  obtain ⟨hwf, htl⟩ := Vector.pushAll_spec l (Vector.mkDefault T) hwf0
  have htl0 : (Vector.mkDefault T).toList = [] := by
    simp [Vector.mkDefault, Vector.toList]
  rw [htl0, List.nil_append] at htl
  have hsz : (Vector.pushAll (Vector.mkDefault T) l).sz = l.length := by
    have := Vector.toList_length _ hwf
    rw [htl] at this
    omega
  refine ⟨hsz, ?_⟩
  intro i hi
  rw [Vector.get_toList _ i (by omega), htl]

/-- Witness for C1 at a concrete list crossing the first doubling
boundary (size 6 > initial capacity 5). -/
theorem C1_append_correctness_witness :
    (Vector.pushAll (Vector.mkDefault Int) [10, 20, 30, 40, 50, 60]).size = 6 ∧
    (Vector.pushAll (Vector.mkDefault Int) [10, 20, 30, 40, 50, 60]).get 5 = Except.ok 60 :=
  ⟨(C1_append_correctness [10, 20, 30, 40, 50, 60]).1,
   (C1_append_correctness [10, 20, 30, 40, 50, 60]).2 5 (by decide)⟩

/-- C2: for every well-formed container state and valid insert position
p ≤ size(), erase applied to the cursor returned by insert(p, v) restores
the original sequence: same size and same elements at every index. -/
theorem C2_insert_erase_roundtrip {T : Type} [Inhabited T]
    (v : Vector T) (p : Nat) (x : T)
    (hwf : Vector.WF v) (hp : p ≤ v.size) :
    ∃ v1 c v2 c2, v.insert (p : Int) x = Except.ok (v1, c) ∧
      v1.erase (c : Int) = Except.ok (v2, c2) ∧
      v2.size = v.size ∧ v2.toList = v.toList := by
  have hp' : p ≤ v.sz := hp
  obtain ⟨v1, hins, hsz1, hmax1, htl1, hwf1⟩ := Vector.insert_ok v p x hwf hp'
  have hp1 : p < v1.sz := by omega
  obtain ⟨v2, hers, hsz2, hmax2, htl2, hwf2⟩ := Vector.erase_ok v1 p hwf1 hp1
  refine ⟨v1, p, v2, p, hins, hers, ?_, ?_⟩
  · show v2.sz = v.sz
    omega
  · rw [htl2, htl1]
    have hply : p ≤ v.toList.length := by
      rw [Vector.toList_length v hwf]
      exact hp
    have hA : (v.toList.take p).length = p := by
      simp
      omega
    have d1 : (v.toList.take p ++ x :: v.toList.drop p).take p = v.toList.take p := by
      rw [List.take_append_of_le_length (by rw [hA])]
      rw [List.take_take]
      simp
    have d2 : (v.toList.take p ++ x :: v.toList.drop p).drop (p + 1) = v.toList.drop p := by
      rw [List.drop_append_eq_append_drop, hA]
      rw [List.drop_of_length_le (by rw [hA]; omega)]
      simp
    rw [d1, d2, List.take_append_drop]

/-- Witness for C2: inserting 99 at position 1 of [10, 20, 30] and
erasing at the returned cursor restores the sequence. -/
theorem C2_insert_erase_roundtrip_witness :
    ∃ v1 c v2 c2,
      (Vector.fromList ([10, 20, 30] : List Int)).insert ((1 : Nat) : Int) 99
        = Except.ok (v1, c) ∧
      v1.erase (c : Int) = Except.ok (v2, c2) ∧
      v2.size = (Vector.fromList ([10, 20, 30] : List Int)).size ∧
      v2.toList = (Vector.fromList ([10, 20, 30] : List Int)).toList :=
  C2_insert_erase_roundtrip (Vector.fromList [10, 20, 30]) 1 99 (by decide) (by decide)

/-- C3: indexed access at any i ≥ size() fails with the out-of-range
error, pop_back on an empty container fails with the underflow error,
insert with a cursor resolving outside [0, size] and erase with a cursor
resolving outside [0, size) fail with the bounds error; each failing
operation only returns the error (validation precedes any state change,
so size, capacity and all retained elements are untouched). -/
theorem C3_bounds_signaling {T : Type} [Inhabited T]
    (v : Vector T) (i : Nat) (pos : Int) (x : T) :
    (i ≥ v.size → v.get i = Except.error "Index out of bounds") ∧
    (v.size = 0 → v.pop_back = Except.error "Cannot pop from empty vector") ∧
    (pos < 0 ∨ pos.toNat > v.size →
      v.insert pos x = Except.error "Iterator out of bounds") ∧
    (pos < 0 ∨ pos.toNat ≥ v.size →
      v.erase pos = Except.error "Iterator out of bounds") := by
  refine ⟨?_, ?_, ?_, ?_⟩ <;> intro h
  · have h' : i ≥ v.sz := h
    rw [Vector.get, if_pos h']
  · have h' : v.sz = 0 := h
    rw [Vector.pop_back, if_pos h']
  · have h' : pos < 0 ∨ pos.toNat > v.sz := h
    rw [Vector.insert, if_pos h']
  · have h' : pos < 0 ∨ pos.toNat ≥ v.sz := h
    rw [Vector.erase, if_pos h']

/-- Witness for C3 on the empty default container. -/
theorem C3_bounds_signaling_witness :
    (Vector.mkDefault Int).get 0 = Except.error "Index out of bounds" ∧
    (Vector.mkDefault Int).pop_back = Except.error "Cannot pop from empty vector" ∧
    (Vector.mkDefault Int).insert (-1) 7 = Except.error "Iterator out of bounds" ∧
    (Vector.mkDefault Int).erase (-1) = Except.error "Iterator out of bounds" :=
  ⟨(C3_bounds_signaling (Vector.mkDefault Int) 0 (-1) 7).1 (by decide),
   (C3_bounds_signaling (Vector.mkDefault Int) 0 (-1) 7).2.1 (by decide),
   (C3_bounds_signaling (Vector.mkDefault Int) 0 (-1) 7).2.2.1 (by decide),
   (C3_bounds_signaling (Vector.mkDefault Int) 0 (-1) 7).2.2.2 (by decide)⟩

/-- C4: the invariant size() ≤ capacity() ∧ capacity() ≥ min_capacity
(with min_capacity = 5) holds for every construction path and is
preserved by clear, reserve, shrink_to_fit (also at length 0), push_back,
pop_back, insert, and erase. -/
theorem C4_invariants {T : Type} [Inhabited T]
    (n m : Nat) (l : List T) (v : Vector T) (x : T) (pos : Int) :
    ((Vector.mkDefault T).size ≤ (Vector.mkDefault T).capacity
      ∧ Vector.min_capacity ≤ (Vector.mkDefault T).capacity) ∧
    ((Vector.mkSized T n).size ≤ (Vector.mkSized T n).capacity
      ∧ Vector.min_capacity ≤ (Vector.mkSized T n).capacity) ∧
    ((Vector.fromList l).size ≤ (Vector.fromList l).capacity
      ∧ Vector.min_capacity ≤ (Vector.fromList l).capacity) ∧
    (Vector.WF v →
      ((Vector.copy v).size ≤ (Vector.copy v).capacity
        ∧ Vector.min_capacity ≤ (Vector.copy v).capacity) ∧
      ((Vector.clear v).size ≤ (Vector.clear v).capacity
        ∧ Vector.min_capacity ≤ (Vector.clear v).capacity) ∧
      ((v.reserve m).size ≤ (v.reserve m).capacity
        ∧ Vector.min_capacity ≤ (v.reserve m).capacity) ∧
      (v.shrink_to_fit.size ≤ v.shrink_to_fit.capacity
        ∧ Vector.min_capacity ≤ v.shrink_to_fit.capacity) ∧
      ((v.push_back x).size ≤ (v.push_back x).capacity
        ∧ Vector.min_capacity ≤ (v.push_back x).capacity) ∧
      (∀ w, v.pop_back = Except.ok w →
        w.size ≤ w.capacity ∧ Vector.min_capacity ≤ w.capacity) ∧
      (∀ v1 c, v.insert pos x = Except.ok (v1, c) →
        v1.size ≤ v1.capacity ∧ Vector.min_capacity ≤ v1.capacity) ∧
      (∀ v2 c, v.erase pos = Except.ok (v2, c) →
        v2.size ≤ v2.capacity ∧ Vector.min_capacity ≤ v2.capacity)) := by
  refine ⟨?_, ?_, ?_, ?_⟩
  · exact ⟨(Vector.wf_mkDefault T).1, (Vector.wf_mkDefault T).2.1⟩
  · exact ⟨(Vector.wf_mkSized T n).1, (Vector.wf_mkSized T n).2.1⟩
  · exact ⟨(Vector.wf_fromList l).1, (Vector.wf_fromList l).2.1⟩
  intro hwf
  refine ⟨?_, ?_, ?_, ?_, ?_, ?_, ?_, ?_⟩
  · exact ⟨(Vector.wf_copy v hwf).1, (Vector.wf_copy v hwf).2.1⟩
  · exact ⟨(Vector.wf_clear v hwf).1, (Vector.wf_clear v hwf).2.1⟩
  · exact ⟨(Vector.wf_reserve v m hwf).1, (Vector.wf_reserve v m hwf).2.1⟩
  · exact ⟨(Vector.wf_shrink_to_fit v hwf).1, (Vector.wf_shrink_to_fit v hwf).2.1⟩
  · exact ⟨(Vector.push_back_eq v x hwf).2.2.2.1, (Vector.push_back_eq v x hwf).2.2.2.2.1⟩
  · intro w hw
    obtain ⟨h0, rfl⟩ := Vector.pop_back_inv v w hw
    exact ⟨Nat.le_trans (Nat.sub_le _ _) hwf.1, hwf.2.1⟩
  · intro v1 c h
    obtain ⟨p, _, _, _, _, _, _, hwf1⟩ := Vector.insert_inv v pos x v1 c hwf h
    exact ⟨hwf1.1, hwf1.2.1⟩
  · intro v2 c h
    obtain ⟨p, _, _, _, _, _, _, hwf2⟩ := Vector.erase_inv v pos v2 c hwf h
    exact ⟨hwf2.1, hwf2.2.1⟩

/-- Witness for C4 on concrete states: a zero-sized request still gets
the floor capacity, and shrink_to_fit at length 0 keeps the floor. -/
theorem C4_invariants_witness :
    ((Vector.mkSized Int 0).size ≤ (Vector.mkSized Int 0).capacity
      ∧ Vector.min_capacity ≤ (Vector.mkSized Int 0).capacity) ∧
    ((Vector.clear (Vector.fromList ([1, 2, 3, 4, 5, 6] : List Int))).shrink_to_fit.size
        ≤ (Vector.clear (Vector.fromList ([1, 2, 3, 4, 5, 6] : List Int))).shrink_to_fit.capacity
      ∧ Vector.min_capacity
        ≤ (Vector.clear (Vector.fromList ([1, 2, 3, 4, 5, 6] : List Int))).shrink_to_fit.capacity) :=
  ⟨(C4_invariants 0 0 ([] : List Int) (Vector.mkDefault Int) 0 0).2.1,
   ((C4_invariants 0 0 ([] : List Int)
      (Vector.clear (Vector.fromList ([1, 2, 3, 4, 5, 6] : List Int))) 0 0).2.2.2
      (by decide)).2.2.2.1⟩

/-- C5 counterexample: the claim asserts size() = capacity() after
from-list construction; for the three-element list the code gives
size 3 but capacity 5. -/
theorem C5_counterexample :
    ¬ ((Vector.fromList ([10, 20, 30] : List Int)).size
        = (Vector.fromList ([10, 20, 30] : List Int)).capacity) := by
  decide

/-- C5 (amended): from-list construction gives size() = values.count,
capacity() = max(values.count, floor), and the listed values stored at
indices [0, values.count). -/
theorem C5_fromList_amended {T : Type} [Inhabited T] (l : List T) :
    (Vector.fromList l).size = l.length ∧
    (Vector.fromList l).capacity = max l.length Vector.min_capacity ∧
    ∀ i, i < l.length →
      (Vector.fromList l).get i = Except.ok (l.getD i default) := by
  refine ⟨rfl, rfl, ?_⟩
  intro i hi
  have hsz : (Vector.fromList l).sz = l.length := rfl
  rw [Vector.get_toList _ i (by omega), Vector.fromList_toList]

/-- Witness for C5 (amended) at [10, 20, 30]. -/
theorem C5_fromList_amended_witness :
    (Vector.fromList ([10, 20, 30] : List Int)).size = 3 ∧
    (Vector.fromList ([10, 20, 30] : List Int)).capacity = 5 ∧
    (Vector.fromList ([10, 20, 30] : List Int)).get 1 = Except.ok 20 :=
  ⟨(C5_fromList_amended ([10, 20, 30] : List Int)).1,
   (C5_fromList_amended ([10, 20, 30] : List Int)).2.1,
   (C5_fromList_amended ([10, 20, 30] : List Int)).2.2 1 (by decide)⟩

/-- C6: reserve(n) is a no-op when n ≤ capacity(); when n > capacity()
it sets capacity() to exactly n preserving size() and the live elements;
push_back on a full container grows capacity to exactly capacity * 2,
writes the value at index size() and increments size(). -/
theorem C6_reserve_and_growth {T : Type} [Inhabited T]
    (v : Vector T) (n : Nat) (x : T) (hwf : Vector.WF v) :
    (n ≤ v.capacity → v.reserve n = v) ∧
    (n > v.capacity →
      (v.reserve n).capacity = n ∧ (v.reserve n).size = v.size ∧
      (v.reserve n).toList = v.toList) ∧
    (v.size = v.capacity →
      (v.push_back x).capacity = v.capacity * 2 ∧
      (v.push_back x).size = v.size + 1 ∧
      (v.push_back x).toList = v.toList ++ [x] ∧
      (v.push_back x).get v.size = Except.ok x) := by
  refine ⟨?_, ?_, ?_⟩
  · intro h
    exact Vector.reserve_of_le v n h
  · intro h
    exact ⟨Vector.reserve_max_sz v n h, Vector.reserve_sz v n,
      Vector.reserve_toList v n hwf⟩
  · intro h
    obtain ⟨hsz, hmax, htl, hwf'⟩ := Vector.push_back_eq v x hwf
    have h' : v.sz = v.max_sz := h
    refine ⟨?_, hsz, htl, ?_⟩
    · show (v.push_back x).max_sz = v.max_sz * 2
      rw [hmax, if_pos h']
    · show (v.push_back x).get v.sz = Except.ok x
      have hL : v.toList.length = v.sz := Vector.toList_length v hwf
      rw [Vector.get_toList _ v.sz (by omega), htl]
      congr 1
      rw [List.getD_eq_getElem?_getD, List.getElem?_append_right (by omega), hL]
      simp

/-- Witness for C6: a no-op reserve, a growing reserve, and a push_back
on the full container [1,2,3,4,5]. -/
theorem C6_reserve_and_growth_witness :
    ((Vector.fromList ([1, 2, 3, 4, 5] : List Int)).reserve 3
      = Vector.fromList ([1, 2, 3, 4, 5] : List Int)) ∧
    ((Vector.fromList ([1, 2, 3, 4, 5] : List Int)).reserve 7).capacity = 7 ∧
    ((Vector.fromList ([1, 2, 3, 4, 5] : List Int)).push_back 6).capacity
      = (Vector.fromList ([1, 2, 3, 4, 5] : List Int)).capacity * 2 ∧
    ((Vector.fromList ([1, 2, 3, 4, 5] : List Int)).push_back 6).get 5 = Except.ok 6 :=
  ⟨(C6_reserve_and_growth (Vector.fromList [1, 2, 3, 4, 5]) 3 6 (by decide)).1 (by decide),
   ((C6_reserve_and_growth (Vector.fromList [1, 2, 3, 4, 5]) 7 6 (by decide)).2.1 (by decide)).1,
   ((C6_reserve_and_growth (Vector.fromList [1, 2, 3, 4, 5]) 7 6 (by decide)).2.2 (by decide)).1,
   ((C6_reserve_and_growth (Vector.fromList [1, 2, 3, 4, 5]) 7 6 (by decide)).2.2 (by decide)).2.2.2⟩

/-- C7 counterexample: the claim asserts the copy's buffer mirrors the
source's buffer up to the source's capacity; after clearing
[1, 2, 3] the source buffer still holds the stale 1 at slot 0 (< capacity),
while the copy's fresh buffer holds the default value there. -/
theorem C7_counterexample :
    0 < (Vector.clear (Vector.fromList ([1, 2, 3] : List Int))).capacity ∧
    (Vector.copy (Vector.clear (Vector.fromList ([1, 2, 3] : List Int)))).values.getD 0 0
      ≠ (Vector.clear (Vector.fromList ([1, 2, 3] : List Int))).values.getD 0 0 := by
  decide

/-- C7 (amended): copying produces equal size and capacity, the same
observable sequence, a fresh buffer holding the source's first size()
elements followed by default-initialized slots (deep copy up to the
source's length, not its capacity), and self-assignment is a no-op. -/
theorem C7_copy_amended {T : Type} [Inhabited T]
    (v other : Vector T) (hwf : Vector.WF v) :
    (Vector.copy v).size = v.size ∧
    (Vector.copy v).capacity = v.capacity ∧
    (Vector.copy v).toList = v.toList ∧
    (Vector.copy v).values
      = v.values.take v.size ++ List.replicate (v.capacity - v.size) default ∧
    Vector.assign v v true = v ∧
    Vector.assign v other false = Vector.copy other ∧
    Vector.WF (Vector.copy v) :=
  ⟨rfl, rfl, Vector.copy_toList v hwf, rfl, rfl, rfl, Vector.wf_copy v hwf⟩

/-- Witness for C7 (amended) on the cleared [1, 2, 3] container. -/
theorem C7_copy_amended_witness :
    (Vector.copy (Vector.clear (Vector.fromList ([1, 2, 3] : List Int)))).size
      = (Vector.clear (Vector.fromList ([1, 2, 3] : List Int))).size ∧
    (Vector.copy (Vector.clear (Vector.fromList ([1, 2, 3] : List Int)))).toList
      = (Vector.clear (Vector.fromList ([1, 2, 3] : List Int))).toList ∧
    Vector.assign (Vector.clear (Vector.fromList ([1, 2, 3] : List Int)))
        (Vector.clear (Vector.fromList ([1, 2, 3] : List Int))) true
      = Vector.clear (Vector.fromList ([1, 2, 3] : List Int)) :=
  ⟨(C7_copy_amended (Vector.clear (Vector.fromList [1, 2, 3]))
      (Vector.mkDefault Int) (by decide)).1,
   (C7_copy_amended (Vector.clear (Vector.fromList [1, 2, 3]))
      (Vector.mkDefault Int) (by decide)).2.2.1,
   (C7_copy_amended (Vector.clear (Vector.fromList [1, 2, 3]))
      (Vector.mkDefault Int) (by decide)).2.2.2.2.1⟩

/-- C8: the formatting operation renders exactly the bracketed,
comma-separated sequence of the container's size() elements in index
order; an empty container renders as "[]".  Elements at indices ≥ size()
are never rendered (the rendering depends only on the live prefix
`toList`). -/
theorem C8_formatting {T : Type} [Inhabited T] [ToString T]
    (v : Vector T) (hwf : Vector.WF v) :
    Vector.render v = "[" ++ Vector.joinSep ", " (v.toList.map toString) ++ "]" ∧
    (v.size = 0 → Vector.render v = "[]") := by
  have h := Vector.render_eq_renderSpec v hwf
  constructor
  · rw [h]
    rfl
  · intro h0
    rw [h]
    have hnil : v.toList = [] := by
      have hL := Vector.toList_length v hwf
      have h0' : v.sz = 0 := h0
      rw [h0'] at hL
      exact List.eq_nil_of_length_eq_zero hL
    rw [Vector.renderSpec, hnil]
    rfl

/-- Witness for C8: the populated and the empty rendering. -/
theorem C8_formatting_witness :
    Vector.render (Vector.fromList ([1, 2, 3] : List Int))
      = "[" ++ Vector.joinSep ", "
          ((Vector.fromList ([1, 2, 3] : List Int)).toList.map toString) ++ "]" ∧
    Vector.render (Vector.mkDefault Int) = "[]" :=
  ⟨(C8_formatting (Vector.fromList ([1, 2, 3] : List Int)) (by decide)).1,
   (C8_formatting (Vector.mkDefault Int) (by decide)).2 (by decide)⟩

/-- C9: pop_back and erase never change capacity(); push_back and insert
leave capacity() unchanged whenever size() < capacity() beforehand. -/
theorem C9_capacity_frame {T : Type} [Inhabited T]
    (v : Vector T) (x : T) (pos : Int) (hwf : Vector.WF v) :
    (∀ w, v.pop_back = Except.ok w → w.capacity = v.capacity) ∧
    (∀ v2 c, v.erase pos = Except.ok (v2, c) → v2.capacity = v.capacity) ∧
    (v.size < v.capacity → (v.push_back x).capacity = v.capacity) ∧
    (v.size < v.capacity →
      ∀ v1 c, v.insert pos x = Except.ok (v1, c) → v1.capacity = v.capacity) := by
  refine ⟨?_, ?_, ?_, ?_⟩
  · intro w hw
    obtain ⟨h0, rfl⟩ := Vector.pop_back_inv v w hw
    rfl
  · intro v2 c h
    obtain ⟨p, _, _, _, _, hmax, _, _⟩ := Vector.erase_inv v pos v2 c hwf h
    exact hmax
  · intro hlt
    have hlt' : v.sz < v.max_sz := hlt
    show (v.push_back x).max_sz = v.max_sz
    rw [(Vector.push_back_eq v x hwf).2.1, if_neg (by omega)]
  · intro hlt v1 c h
    have hlt' : v.sz < v.max_sz := hlt
    obtain ⟨p, _, _, _, _, hmax, _, _⟩ := Vector.insert_inv v pos x v1 c hwf h
    show v1.max_sz = v.max_sz
    rw [hmax, if_neg (by omega)]

/-- Witness for C9 on [1, 2, 3] (size 3 < capacity 5). -/
theorem C9_capacity_frame_witness :
    ({ sz := 2, max_sz := 5, values := [1, 2, 3, 0, 0] } : Vector Int).capacity
      = (Vector.fromList ([1, 2, 3] : List Int)).capacity ∧
    ((Vector.fromList ([1, 2, 3] : List Int)).push_back 9).capacity
      = (Vector.fromList ([1, 2, 3] : List Int)).capacity :=
  ⟨(C9_capacity_frame (Vector.fromList ([1, 2, 3] : List Int)) 9 0 (by decide)).1
      ({ sz := 2, max_sz := 5, values := [1, 2, 3, 0, 0] } : Vector Int) (by rfl),
   (C9_capacity_frame (Vector.fromList ([1, 2, 3] : List Int)) 9 0 (by decide)).2.2.1
      (by decide)⟩

/-- C10: push_back(v) immediately followed by pop_back() restores the
original size() and the original sequence of live elements (capacity may
have grown when the container was full). -/
theorem C10_push_pop_roundtrip {T : Type} [Inhabited T]
    (v : Vector T) (x : T) (hwf : Vector.WF v) :
    ∃ w, (v.push_back x).pop_back = Except.ok w ∧
      w.size = v.size ∧ w.toList = v.toList := by
  obtain ⟨w, hok, hsz, htl, _, _⟩ := Vector.push_pop v x hwf
  exact ⟨w, hok, hsz, htl⟩

/-- Witness for C10 on the full container [1, 2, 3, 4, 5] (push triggers
a capacity doubling, pop still restores the sequence). -/
theorem C10_push_pop_roundtrip_witness :
    ∃ w, ((Vector.fromList ([1, 2, 3, 4, 5] : List Int)).push_back 6).pop_back
        = Except.ok w ∧
      w.size = (Vector.fromList ([1, 2, 3, 4, 5] : List Int)).size ∧
      w.toList = (Vector.fromList ([1, 2, 3, 4, 5] : List Int)).toList :=
  C10_push_pop_roundtrip (Vector.fromList ([1, 2, 3, 4, 5] : List Int)) 6 (by decide)

end Impl
